import Mathlib

/-!
Verification of the crossover operators of the gago genetic-algorithm
library (file `crossover.go`), shallowly embedded in Lean.

Genomes are modelled as `List α` (Go `[]interface{}`); gene values for the
numeric blend operator are modelled as rationals (exact arithmetic standing
for Go `float64`).  Go's `*rand.Rand` is modelled as a pair of infinite
streams: `ints n` backs the n-th value consumed through `Intn` and
`floats n` the n-th value consumed through `Float64`; consuming a value
shifts both streams.  Go's `Intn` panics when its argument is not positive,
and out-of-range indexing panics; both are modelled by `Option`-valued
functions returning `none`.
-/

namespace Gago

/-- Stream model of Go's `*rand.Rand`: `ints` backs `Intn`, `floats` backs
`Float64`; drawing a value shifts both streams by one. -/
structure Rand where
  ints : Nat → Nat
  floats : Nat → Rat

/-- Advance the random stream by one consumed value. -/
def Rand.shift (r : Rand) : Rand :=
  ⟨fun n => r.ints (n + 1), fun n => r.floats (n + 1)⟩

/-- Model of Go's `rng.Intn(n)`: a uniform value in `[0, n)`; panics
(`none`) when `n <= 0`. -/
def Rand.intn (r : Rand) (n : Int) : Option (Nat × Rand) :=
  if n ≤ 0 then none else some (r.ints 0 % n.toNat, r.shift)

/-- Model of Go's `rng.Float64()`: the next value of the float stream
(Go guarantees it lies in `[0,1)`; here that is a hypothesis on the
stream where a theorem needs it). -/
def Rand.float64 (r : Rand) : Rat × Rand :=
  (r.floats 0, r.shift)

/-- Modelled from the spec: an `Individual` is a gene sequence plus a
cached fitness-validity flag (the `Individual` source file is not under
`src/`; §3 of the spec). -/
structure Individual (α : Type) where
  Genome : List α
  FitnessValid : Bool
  deriving DecidableEq

/-- Modelled from the spec: `makeIndividual(length, rng)` allocates a
genome of exactly `length` uninitialized slots (Go `nil` entries, here
`default`) and marks fitness invalid; it does not populate gene values
(§4.1 of the spec; source file not under `src/`). -/
def makeIndividual (α : Type) [Inhabited α] (len : Nat) (rng : Rand) : Individual α :=
  ⟨List.replicate len default, false⟩

/-- Modelled from the spec: `getIndex(value, sequence)` is a linear scan
returning the position of the first element equal to `value`, and an error
result (`none`) when the value is absent (§4.3 of the spec; source file
not under `src/`). -/
def getIndex {α : Type} [DecidableEq α] (value : α) : List α → Option Nat
  | [] => none
  | x :: xs => if x = value then some 0 else (getIndex value xs).map (· + 1)

/-- Helper for `randomInts`: draw `k` values without replacement from the
pool `avail`, using the integer stream to pick an index into the remaining
pool at each step. -/
def pickDistinct : Nat → List Nat → Rand → List Nat × Rand
  | 0, _, rng => ([], rng)
  | k + 1, avail, rng =>
    let j := rng.ints 0 % avail.length
    let v := avail.getD j 0
    let rest := pickDistinct k (avail.eraseIdx j) rng.shift
    (v :: rest.1, rest.2)

/-- Modelled from the spec: `randomInts(k, lo, hi, rng)` returns `k`
pairwise distinct integers, each in `[lo, hi)`, in unspecified order, and
fails (reports an error, modelled as `none`) when `k > hi - lo`; on
failure Go's multi-return convention pairs the error with a `nil` slice
(§4.2 of the spec; source file not under `src/`). -/
def randomInts (k lo hi : Nat) (rng : Rand) : Option (List Nat × Rand) :=
  if hi - lo < k then none
  else some (pickDistinct k (List.range' lo (hi - lo)) rng)

/-- One element of Go's `copy(dst[lo:hi], src[lo:hi])`, walking `dst` with
a running index `j`: positions in `[lo, hi)` take the corresponding `src`
element when it exists, all other positions keep the `dst` element. -/
def copyFrom (src : List α) (lo hi : Nat) : Nat → List α → List α
  | _, [] => []
  | j, x :: xs =>
    (if lo ≤ j ∧ j < hi then src.getD j x else x) :: copyFrom src lo hi (j + 1) xs

/-- Model of Go's `copy(dst[lo:hi], src[lo:hi])` on whole-list views. -/
def copyRange (dst src : List α) (lo hi : Nat) : List α :=
  copyFrom src lo hi 0 dst

/-- Model of Go's builtin `copy(dst, src)`: copies
`min (length dst) (length src)` leading elements of `src` over `dst`. -/
def goCopy (dst src : List α) : List α :=
  copyRange dst src 0 dst.length

/-- `CrossPoint` selects random points on the genome and exchanges the
segments they delimit (`crossover.go`). -/
structure CrossPoint where
  NbPoints : Nat
  deriving DecidableEq

/-- The segment-copying loop of `CrossPoint.Apply`
(`for i := 0; i < len(points)-1; i++ { ... }` in `crossover.go`).  The
boolean switch `s` selects which parent is copied onto which offspring;
the source updates it with `s = !true` at the end of every iteration,
which is reproduced literally here. -/
def copySegs (p1g p2g : List α) : List Nat → Bool → List α × List α → List α × List α
  | a :: b :: rest, s, (g1, g2) =>
    let g1' := if s then copyRange g1 p1g a b else copyRange g1 p2g a b
    let g2' := if s then copyRange g2 p2g a b else copyRange g2 p1g a b
    copySegs p1g p2g (b :: rest) (!true) (g1', g2')
  | _, _, gs => gs

/-- `CrossPoint.Apply` from `crossover.go`: choose `NbPoints` random
points (the error of `randomInts` is discarded by `points, _ = ...`, so a
failed draw leaves the `nil` point slice), sort them, bracket them with
`0` and `nbGenes`, and copy alternating segments of the parents onto the
offspring. -/
def CrossPoint.Apply {α : Type} [Inhabited α] (cross : CrossPoint)
    (p1 p2 : Individual α) (rng : Rand) : Individual α × Individual α :=
  let nbGenes := p1.Genome.length
  let res := randomInts cross.NbPoints 0 nbGenes rng
  let points := (res.map Prod.fst).getD []
  let rng1 := (res.map Prod.snd).getD rng
  let o1 := makeIndividual α nbGenes rng1
  let o2 := makeIndividual α nbGenes rng1
  let pts := 0 :: List.insertionSort (· ≤ ·) points ++ [nbGenes]
  let gs := copySegs p1.Genome p2.Genome pts true (o1.Genome, o2.Genome)
  ({ o1 with Genome := gs.1 }, { o2 with Genome := gs.2 })

/-- `CrossUniformF` blends two numeric genomes gene by gene
(`crossover.go`). -/
structure CrossUniformF where
  deriving DecidableEq

/-- The per-gene loop of `CrossUniformF.Apply`: at each position draw a
fresh `p` and form the two complementary convex combinations. -/
def uniformGenes : List Rat → List Rat → Rand → List Rat × List Rat
  | x :: xs, y :: ys, rng =>
    let p := (rng.float64).1
    let rest := uniformGenes xs ys (rng.float64).2
    ((p * x + (1 - p) * y) :: rest.1, ((1 - p) * x + p * y) :: rest.2)
  | _, _, _ => ([], [])

/-- `CrossUniformF.Apply` from `crossover.go`: for every gene position
pick `p = rng.Float64()` and set
`o1[i] = p*p1[i] + (1-p)*p2[i]`, `o2[i] = (1-p)*p1[i] + p*p2[i]`. -/
def CrossUniformF.Apply (cross : CrossUniformF) (p1 p2 : Individual Rat)
    (rng : Rand) : Individual Rat × Individual Rat :=
  let nbGenes := p1.Genome.length
  let o1 := makeIndividual Rat nbGenes rng
  let o2 := makeIndividual Rat nbGenes rng
  let gs := uniformGenes p1.Genome p2.Genome rng
  ({ o1 with Genome := gs.1 }, { o2 with Genome := gs.2 })

/-- `CrossPMX` is partially mapped crossover for permutation genomes
(`crossover.go`). -/
structure CrossPMX where
  deriving DecidableEq

/-- One body line of the PMX loop for one offspring genome `g`: find the
position `a` of `pg[i]` in `g` (failing like Go's lookup when absent),
then perform `g[a], g[i] = g[i], pg[i]`. -/
def pmxStep {α : Type} [DecidableEq α] (pg g : List α) (i : Nat) : Option (List α) :=
  match pg.get? i, g.get? i with
  | some v, some gi =>
    match getIndex v g with
    | some a => some ((g.set a gi).set i v)
    | none => none
  | _, _ => none

/-- The PMX loop `for i := 0; i < p; i++` of `crossover.go`, over the
explicit list of loop indices: each iteration maps one more position of
each offspring from the other parent. -/
def pmxLoop {α : Type} [DecidableEq α] (p1g p2g : List α) :
    List Nat → List α × List α → Option (List α × List α)
  | [], gs => some gs
  | i :: is, (g1, g2) =>
    match pmxStep p2g g1 i with
    | none => none
    | some g1' =>
      match pmxStep p1g g2 i with
      | none => none
      | some g2' => pmxLoop p1g p2g is (g1', g2')

/-- `CrossPMX.Apply` from `crossover.go`: copy the parents onto the
offspring, draw `p = rng.Intn(nbGenes-2) + 1` (so `Intn` panics, modelled
as `none`, when `nbGenes < 3`), then run the mapping loop for
`i = 0 .. p-1`. -/
def CrossPMX.Apply {α : Type} [DecidableEq α] [Inhabited α] (c : CrossPMX)
    (p1 p2 : Individual α) (rng : Rand) : Option (Individual α × Individual α) :=
  let nbGenes := p1.Genome.length
  let o1 := makeIndividual α nbGenes rng
  let o2 := makeIndividual α nbGenes rng
  let g1 := goCopy o1.Genome p1.Genome
  let g2 := goCopy o2.Genome p2.Genome
  match rng.intn ((nbGenes : Int) - 2) with
  | none => none
  | some (q, _) =>
    let p := q + 1
    match pmxLoop p1.Genome p2.Genome (List.range p) (g1, g2) with
    | none => none
    | some gs => some ({ o1 with Genome := gs.1 }, { o2 with Genome := gs.2 })

/-! Basic lemmas about list indexing and the copy model. -/

theorem get?_set {α : Type} (l : List α) (i j : Nat) (a : α) :
    (l.set i a).get? j = if i = j ∧ j < l.length then some a else l.get? j := by
  induction l generalizing i j with
  | nil => simp
  | cons x xs ih =>
    cases i with
    | zero =>
      cases j with
      | zero => simp
      | succ j => simp
    | succ i =>
      cases j with
      | zero => simp
      | succ j => simpa [Nat.succ_lt_succ_iff] using ih i j

theorem copyFrom_length {α : Type} (src : List α) (lo hi : Nat) :
    ∀ (j : Nat) (l : List α), (copyFrom src lo hi j l).length = l.length := by
  intro j l
  induction l generalizing j with
  | nil => rfl
  | cons x xs ih => simp [copyFrom, ih]

theorem copyFrom_get? {α : Type} (src : List α) (lo hi : Nat) :
    ∀ (j t : Nat) (l : List α),
      (copyFrom src lo hi j l).get? t =
        (l.get? t).map
          (fun x => if lo ≤ j + t ∧ j + t < hi then src.getD (j + t) x else x) := by
  intro j t l
  induction l generalizing j t with
  | nil => rfl
  | cons x xs ih =>
    cases t with
    | zero => simp [copyFrom]
    | succ t =>
      have hidx : j + 1 + t = j + (t + 1) := by omega
      simpa [copyFrom, hidx] using ih (j + 1) t

theorem copyRange_length {α : Type} (dst src : List α) (lo hi : Nat) :
    (copyRange dst src lo hi).length = dst.length :=
  copyFrom_length src lo hi 0 dst

theorem copyRange_get? {α : Type} (dst src : List α) (lo hi t : Nat) :
    (copyRange dst src lo hi).get? t =
      (dst.get? t).map (fun x => if lo ≤ t ∧ t < hi then src.getD t x else x) := by
  simpa using copyFrom_get? src lo hi 0 t dst

theorem copyRange_replicate {α : Type} (n : Nat) (d : α) (src : List α)
    (h : src.length = n) : copyRange (List.replicate n d) src 0 n = src := by
  apply List.ext
  intro t
  rw [copyRange_get?]
  by_cases ht : t < n
  · have hts : t < src.length := by omega
    have h1 : (List.replicate n d).get? t = some d := by
      rw [List.get?_eq_get (by simpa using ht)]
      simp
    rw [h1]
    simp only [Option.map_some']
    rw [if_pos ⟨Nat.zero_le t, ht⟩]
    rw [List.get?_eq_getElem?, List.getElem?_eq_getElem hts]
    simp [List.getD_eq_getElem?_getD, List.getElem?_eq_getElem hts]
  · have h1 : (List.replicate n d).get? t = none := by
      rw [List.get?_eq_none]
      simpa using Nat.le_of_not_lt ht
    have h2 : src.get? t = none := by
      rw [List.get?_eq_none]
      omega
    rw [h1, h2]
    rfl

theorem copySegs_length {α : Type} (p1g p2g : List α) :
    ∀ (pts : List Nat) (s : Bool) (g1 g2 : List α),
      (copySegs p1g p2g pts s (g1, g2)).1.length = g1.length ∧
      (copySegs p1g p2g pts s (g1, g2)).2.length = g2.length := by
  intro pts
  induction pts with
  | nil => intro s g1 g2; exact ⟨rfl, rfl⟩
  | cons a tail ih =>
    intro s g1 g2
    cases tail with
    | nil => exact ⟨rfl, rfl⟩
    | cons b rest =>
      have h1 := ih (!true) (if s then copyRange g1 p1g a b else copyRange g1 p2g a b)
        (if s then copyRange g2 p2g a b else copyRange g2 p1g a b)
      cases s with
      | false => simpa [copySegs, copyRange_length] using h1
      | true => simpa [copySegs, copyRange_length] using h1

theorem copySegs_pair {α : Type} (p1g p2g r1 r2 : List α) (n : Nat) :
    copySegs p1g p2g [0, n] true (r1, r2) =
      (copyRange r1 p1g 0 n, copyRange r2 p2g 0 n) := rfl

/-- `CrossPoint.Apply` unfolded: both offspring genomes are the result of
the segment-copy loop run on freshly allocated genomes, between boundary
markers `0 :: sorted points ++ [nbGenes]`. -/
theorem crossPoint_apply_genomes {α : Type} [Inhabited α] (cross : CrossPoint)
    (p1 p2 : Individual α) (rng : Rand) :
    (CrossPoint.Apply cross p1 p2 rng).1.Genome =
      (copySegs p1.Genome p2.Genome
        (0 :: List.insertionSort (· ≤ ·)
            (((randomInts cross.NbPoints 0 p1.Genome.length rng).map Prod.fst).getD [])
          ++ [p1.Genome.length]) true
        (List.replicate p1.Genome.length default,
         List.replicate p1.Genome.length default)).1 ∧
    (CrossPoint.Apply cross p1 p2 rng).2.Genome =
      (copySegs p1.Genome p2.Genome
        (0 :: List.insertionSort (· ≤ ·)
            (((randomInts cross.NbPoints 0 p1.Genome.length rng).map Prod.fst).getD [])
          ++ [p1.Genome.length]) true
        (List.replicate p1.Genome.length default,
         List.replicate p1.Genome.length default)).2 := ⟨rfl, rfl⟩

theorem uniformGenes_length :
    ∀ (xs ys : List Rat) (rng : Rand),
      (uniformGenes xs ys rng).1.length = min xs.length ys.length ∧
      (uniformGenes xs ys rng).2.length = min xs.length ys.length := by
  intro xs
  induction xs with
  | nil => intro ys rng; cases ys <;> simp [uniformGenes]
  | cons x xs ih =>
    intro ys rng
    cases ys with
    | nil => simp [uniformGenes]
    | cons y ys =>
      have h := ih ys (rng.float64).2
      refine ⟨?_, ?_⟩ <;> simp [uniformGenes, h.1, h.2, Nat.succ_min_succ]

theorem pmxStep_length {α : Type} [DecidableEq α] (pg g : List α) (i : Nat)
    (g' : List α) : pmxStep pg g i = some g' → g'.length = g.length := by
  intro h
  unfold pmxStep at h
  split at h
  · split at h
    · cases h; simp
    · cases h
  · cases h

theorem pmxLoop_length {α : Type} [DecidableEq α] (p1g p2g : List α) :
    ∀ (is : List Nat) (g1 g2 : List α) (gs : List α × List α),
      pmxLoop p1g p2g is (g1, g2) = some gs →
      gs.1.length = g1.length ∧ gs.2.length = g2.length := by
  intro is
  induction is with
  | nil =>
    intro g1 g2 gs h
    cases h
    exact ⟨rfl, rfl⟩
  | cons i is ih =>
    intro g1 g2 gs h
    unfold pmxLoop at h
    cases hs1 : pmxStep p2g g1 i with
    | none => rw [hs1] at h; cases h
    | some g1' =>
      rw [hs1] at h
      cases hs2 : pmxStep p1g g2 i with
      | none => rw [hs2] at h; cases h
      | some g2' =>
        rw [hs2] at h
        obtain ⟨l1, l2⟩ := ih g1' g2' gs h
        exact ⟨l1.trans (pmxStep_length p2g g1 i g1' hs1),
               l2.trans (pmxStep_length p1g g2 i g2' hs2)⟩

/-! Claim theorems. -/

/-- C1: on `crossover.go` the source-parent assignment does NOT alternate
at every segment boundary.  The loop ends each iteration with `s = !true`
(a constant `false`, despite the comment saying to alternate), so only the
first segment copies parent1 into offspring1; every later segment copies
parent2 into offspring1 and parent1 into offspring2.  Concretely, with
`NbPoints = 2`, parents `[1,2,3,4]` and `[5,6,7,8]`, and a random stream
yielding points `{1,2}`, segment 2 (positions 2..3, an even segment index)
would have to copy parent1 into offspring1 under the claim, giving
offspring `[1,6,3,4]` and `[5,2,7,8]`; the code instead yields `[1,6,7,8]`
and `[5,2,3,4]`. -/
theorem crossPoint_alternation_code_bug :
    ((randomInts 2 0 4 ⟨fun _ => 1, fun _ => 0⟩).map Prod.fst = some [1, 2]) ∧
    (CrossPoint.Apply ⟨2⟩ ⟨[1, 2, 3, 4], true⟩ ⟨[5, 6, 7, 8], true⟩
        ⟨fun _ => 1, fun _ => 0⟩).1.Genome = [1, 6, 7, 8] ∧
    (CrossPoint.Apply ⟨2⟩ ⟨[1, 2, 3, 4], true⟩ ⟨[5, 6, 7, 8], true⟩
        ⟨fun _ => 1, fun _ => 0⟩).2.Genome = [5, 2, 3, 4] ∧
    ([1, 6, 7, 8] ≠ ([1, 6, 3, 4] : List Nat) ∧
     [5, 2, 3, 4] ≠ ([5, 2, 7, 8] : List Nat)) := by
  refine ⟨by decide, by decide, by decide, by decide, by decide⟩

/-- C2 counterexample: with `NbPoints = 5` on genomes of length 3 the
point generator fails, yet `CrossPoint.Apply` reports nothing to the
caller and returns fully formed offspring (copies of the parents): the
failure is silently swallowed, refuting the claim that every
precondition violation is reported synchronously. -/
theorem crossPoint_excess_points_cex :
    randomInts 5 0 3 ⟨fun _ => 1, fun _ => 0⟩ = none ∧
    (CrossPoint.Apply ⟨5⟩ ⟨[1, 2, 3], true⟩ ⟨[4, 5, 6], true⟩
        ⟨fun _ => 1, fun _ => 0⟩) =
      (⟨[1, 2, 3], false⟩, ⟨[4, 5, 6], false⟩) := by
  refine ⟨rfl, by decide⟩

/-- C2 (amended): when `NbPoints` exceeds the genome length, `randomInts`
does report an error, but `CrossPoint.Apply` discards it
(`points, _ = randomInts(...)`) and proceeds with the empty point slice,
silently returning offspring that are exact copies of the parents; no
failure reaches the caller. -/
theorem crossPoint_excess_points_silently_degrades {α : Type} [Inhabited α]
    (cross : CrossPoint) (p1 p2 : Individual α) (rng : Rand)
    (h : p2.Genome.length = p1.Genome.length)
    (hk : p1.Genome.length < cross.NbPoints) :
    randomInts cross.NbPoints 0 p1.Genome.length rng = none ∧
    (CrossPoint.Apply cross p1 p2 rng).1.Genome = p1.Genome ∧
    (CrossPoint.Apply cross p1 p2 rng).2.Genome = p2.Genome := by
  have hri : randomInts cross.NbPoints 0 p1.Genome.length rng = none := by
    unfold randomInts
    rw [if_pos (by omega)]
  obtain ⟨k1, k2⟩ := crossPoint_apply_genomes cross p1 p2 rng
  rw [hri] at k1 k2
  simp only [Option.map_none', Option.getD_none, List.insertionSort,
    List.singleton_append] at k1 k2
  rw [copySegs_pair] at k1 k2
  exact ⟨hri, by rw [k1]; exact copyRange_replicate _ _ _ rfl,
         by rw [k2]; exact copyRange_replicate _ _ _ h⟩

theorem crossPoint_excess_points_silently_degrades_witness :
    (([4, 5, 6] : List Nat).length = ([1, 2, 3] : List Nat).length ∧
     ([1, 2, 3] : List Nat).length < 5) ∧
    (randomInts 5 0 ([1, 2, 3] : List Nat).length ⟨fun _ => 1, fun _ => 0⟩ = none ∧
     (CrossPoint.Apply ⟨5⟩ ⟨[1, 2, 3], true⟩ ⟨[4, 5, 6], true⟩
        ⟨fun _ => 1, fun _ => 0⟩).1.Genome = [1, 2, 3] ∧
     (CrossPoint.Apply ⟨5⟩ ⟨[1, 2, 3], true⟩ ⟨[4, 5, 6], true⟩
        ⟨fun _ => 1, fun _ => 0⟩).2.Genome = [4, 5, 6]) :=
  ⟨⟨by decide, by decide⟩,
   crossPoint_excess_points_silently_degrades ⟨5⟩ ⟨[1, 2, 3], true⟩
     ⟨[4, 5, 6], true⟩ ⟨fun _ => 1, fun _ => 0⟩ (by decide) (by decide)⟩

/-- C8: with `NbPoints = 0` the point list is empty, there is a single
segment `[0, nbGenes)` copied with the switch still `true`, and the
offspring are exact copies of the parents. -/
theorem crossPoint_zero_points_copies_parents {α : Type} [Inhabited α]
    (p1 p2 : Individual α) (rng : Rand)
    (h : p2.Genome.length = p1.Genome.length) :
    (CrossPoint.Apply ⟨0⟩ p1 p2 rng).1.Genome = p1.Genome ∧
    (CrossPoint.Apply ⟨0⟩ p1 p2 rng).2.Genome = p2.Genome := by
  have hri : randomInts 0 0 p1.Genome.length rng = some ([], rng) := by
    unfold randomInts
    rw [if_neg (by omega)]
    rfl
  obtain ⟨k1, k2⟩ := crossPoint_apply_genomes ⟨0⟩ p1 p2 rng
  rw [hri] at k1 k2
  simp only [Option.map_some', Option.getD_some, List.insertionSort,
    List.singleton_append] at k1 k2
  rw [copySegs_pair] at k1 k2
  exact ⟨by rw [k1]; exact copyRange_replicate _ _ _ rfl,
         by rw [k2]; exact copyRange_replicate _ _ _ h⟩

theorem crossPoint_zero_points_copies_parents_witness :
    ([4, 5, 6] : List Nat).length = ([1, 2, 3] : List Nat).length ∧
    ((CrossPoint.Apply ⟨0⟩ ⟨[1, 2, 3], true⟩ ⟨[4, 5, 6], true⟩
        ⟨fun _ => 7, fun _ => 0⟩).1.Genome = [1, 2, 3] ∧
     (CrossPoint.Apply ⟨0⟩ ⟨[1, 2, 3], true⟩ ⟨[4, 5, 6], true⟩
        ⟨fun _ => 7, fun _ => 0⟩).2.Genome = [4, 5, 6]) :=
  ⟨by decide,
   crossPoint_zero_points_copies_parents ⟨[1, 2, 3], true⟩ ⟨[4, 5, 6], true⟩
     ⟨fun _ => 7, fun _ => 0⟩ (by decide)⟩

/-- C7: all three strategies preserve genome length on equal-length
parents: both `CrossPoint` offspring, both `CrossUniformF` offspring, and
(whenever it returns offspring at all) both `CrossPMX` offspring have
genomes of the parents' common length. -/
theorem length_preservation {α : Type} [DecidableEq α] [Inhabited α]
    (cross : CrossPoint) (p1 p2 : Individual α) (q1 q2 : Individual Rat)
    (rng : Rand) (h : p2.Genome.length = p1.Genome.length)
    (hq : q2.Genome.length = q1.Genome.length) :
    ((CrossPoint.Apply cross p1 p2 rng).1.Genome.length = p1.Genome.length ∧
     (CrossPoint.Apply cross p1 p2 rng).2.Genome.length = p1.Genome.length) ∧
    ((CrossUniformF.Apply ⟨⟩ q1 q2 rng).1.Genome.length = q1.Genome.length ∧
     (CrossUniformF.Apply ⟨⟩ q1 q2 rng).2.Genome.length = q1.Genome.length) ∧
    (∀ o1 o2, CrossPMX.Apply ⟨⟩ p1 p2 rng = some (o1, o2) →
      o1.Genome.length = p1.Genome.length ∧
      o2.Genome.length = p1.Genome.length) := by
  refine ⟨?_, ?_, ?_⟩
  · obtain ⟨k1, k2⟩ := crossPoint_apply_genomes cross p1 p2 rng
    obtain ⟨l1, l2⟩ := copySegs_length p1.Genome p2.Genome
      (0 :: List.insertionSort (· ≤ ·)
          (((randomInts cross.NbPoints 0 p1.Genome.length rng).map Prod.fst).getD [])
        ++ [p1.Genome.length]) true
      (List.replicate p1.Genome.length default)
      (List.replicate p1.Genome.length default)
    rw [k1, k2, l1, l2]
    simp
  · have hu := uniformGenes_length q1.Genome q2.Genome rng
    have : (CrossUniformF.Apply ⟨⟩ q1 q2 rng).1.Genome =
        (uniformGenes q1.Genome q2.Genome rng).1 ∧
        (CrossUniformF.Apply ⟨⟩ q1 q2 rng).2.Genome =
        (uniformGenes q1.Genome q2.Genome rng).2 := ⟨rfl, rfl⟩
    rw [this.1, this.2, hu.1, hu.2, hq]
    simp
  · intro o1 o2 hap
    simp only [CrossPMX.Apply, makeIndividual] at hap
    cases hin : Rand.intn rng ((p1.Genome.length : Int) - 2) with
    | none => simp only [hin] at hap; cases hap
    | some qr =>
      obtain ⟨q, r⟩ := qr
      simp only [hin] at hap
      cases hlp : pmxLoop p1.Genome p2.Genome (List.range (q + 1))
        (goCopy (List.replicate p1.Genome.length default) p1.Genome,
         goCopy (List.replicate p1.Genome.length default) p2.Genome) with
      | none => simp only [hlp] at hap; cases hap
      | some gs =>
        simp only [hlp, Option.some.injEq, Prod.mk.injEq] at hap
        obtain ⟨h1, h2⟩ := hap
        have hl := pmxLoop_length p1.Genome p2.Genome (List.range (q + 1)) _ _ gs hlp
        constructor
        · rw [← h1]
          show gs.1.length = _
          rw [hl.1]
          unfold goCopy
          rw [copyRange_length]
          simp
        · rw [← h2]
          show gs.2.length = _
          rw [hl.2]
          unfold goCopy
          rw [copyRange_length]
          simp

theorem length_preservation_witness :
    (([3, 2, 1] : List Nat).length = ([1, 2, 3] : List Nat).length ∧
     ([7, 8] : List Rat).length = ([5, 6] : List Rat).length) ∧
    (((CrossPoint.Apply ⟨1⟩ ⟨[1, 2, 3], true⟩ ⟨[3, 2, 1], true⟩
          ⟨fun _ => 0, fun _ => 0⟩).1.Genome.length
        = ([1, 2, 3] : List Nat).length ∧
      (CrossPoint.Apply ⟨1⟩ ⟨[1, 2, 3], true⟩ ⟨[3, 2, 1], true⟩
          ⟨fun _ => 0, fun _ => 0⟩).2.Genome.length
        = ([1, 2, 3] : List Nat).length) ∧
     ((CrossUniformF.Apply ⟨⟩ ⟨[5, 6], true⟩ ⟨[7, 8], true⟩
          ⟨fun _ => 0, fun _ => 0⟩).1.Genome.length
        = ([5, 6] : List Rat).length ∧
      (CrossUniformF.Apply ⟨⟩ ⟨[5, 6], true⟩ ⟨[7, 8], true⟩
          ⟨fun _ => 0, fun _ => 0⟩).2.Genome.length
        = ([5, 6] : List Rat).length) ∧
     ((⟨[3, 2, 1], false⟩ : Individual Nat).Genome.length
        = ([1, 2, 3] : List Nat).length ∧
      (⟨[1, 2, 3], false⟩ : Individual Nat).Genome.length
        = ([1, 2, 3] : List Nat).length)) := by
  have H := length_preservation ⟨1⟩ ⟨[1, 2, 3], true⟩ ⟨[3, 2, 1], true⟩
    ⟨[5, 6], true⟩ ⟨[7, 8], true⟩ ⟨fun _ => 0, fun _ => 0⟩ (by decide) (by decide)
  exact ⟨⟨by decide, by decide⟩,
    H.1, H.2.1, H.2.2 ⟨[3, 2, 1], false⟩ ⟨[1, 2, 3], false⟩ (by decide)⟩

/-! The uniform blend operator. -/

theorem uniformGenes_get? :
    ∀ (xs ys : List Rat) (rng : Rand) (i : Nat), i < xs.length → i < ys.length →
      (uniformGenes xs ys rng).1.get? i =
        some (rng.floats i * xs.getD i 0 + (1 - rng.floats i) * ys.getD i 0) ∧
      (uniformGenes xs ys rng).2.get? i =
        some ((1 - rng.floats i) * xs.getD i 0 + rng.floats i * ys.getD i 0) := by
  intro xs
  induction xs with
  | nil => intro ys rng i h1 h2; simp at h1
  | cons x xs ih =>
    intro ys rng i h1 h2
    cases ys with
    | nil => simp at h2
    | cons y ys =>
      cases i with
      | zero =>
        constructor <;> simp [uniformGenes, Rand.float64]
      | succ i =>
        have h := ih ys rng.shift i (by simpa using h1) (by simpa using h2)
        have hf : rng.shift.floats i = rng.floats (i + 1) := rfl
        rw [hf] at h
        refine ⟨?_, ?_⟩
        · simpa [uniformGenes, Rand.float64] using h.1
        · simpa [uniformGenes, Rand.float64] using h.2

theorem uniformGenes_all_ones :
    ∀ (xs ys : List Rat) (rng : Rand), (∀ n, rng.floats n = 1) →
      xs.length = ys.length → uniformGenes xs ys rng = (xs, ys) := by
  intro xs
  induction xs with
  | nil =>
    intro ys rng h hl
    cases ys with
    | nil => rfl
    | cons y ys => simp at hl
  | cons x xs ih =>
    intro ys rng h hl
    cases ys with
    | nil => simp at hl
    | cons y ys =>
      have hx : rng.floats 0 = 1 := h 0
      have ih' := ih ys rng.shift (fun n => h (n + 1)) (by simpa using hl)
      simp [uniformGenes, Rand.float64, hx, ih']

theorem convex_combination_bounds (p x y : Rat) (h0 : 0 ≤ p) (h1 : p ≤ 1) :
    min x y ≤ p * x + (1 - p) * y ∧ p * x + (1 - p) * y ≤ max x y := by
  constructor
  · nlinarith [mul_nonneg h0 (sub_nonneg.mpr (min_le_left x y)),
      mul_nonneg (by linarith : (0 : Rat) ≤ 1 - p)
        (sub_nonneg.mpr (min_le_right x y))]
  · nlinarith [mul_nonneg h0 (sub_nonneg.mpr (le_max_left x y)),
      mul_nonneg (by linarith : (0 : Rat) ≤ 1 - p)
        (sub_nonneg.mpr (le_max_right x y))]

/-- C5: `CrossUniformF.Apply` computes, at every gene position `i`
independently, `o1[i] = p·p1[i] + (1−p)·p2[i]` and
`o2[i] = (1−p)·p1[i] + p·p2[i]`, where `p` is the `i`-th value drawn from
the random source — a fresh draw per position (`rng.floats i`), not one
draw shared across the genome. -/
theorem crossUniformF_per_gene_blend (p1 p2 : Individual Rat) (rng : Rand)
    (i : Nat) (hi : i < p1.Genome.length) (hi2 : i < p2.Genome.length) :
    (CrossUniformF.Apply ⟨⟩ p1 p2 rng).1.Genome.get? i =
      some (rng.floats i * p1.Genome.getD i 0 +
        (1 - rng.floats i) * p2.Genome.getD i 0) ∧
    (CrossUniformF.Apply ⟨⟩ p1 p2 rng).2.Genome.get? i =
      some ((1 - rng.floats i) * p1.Genome.getD i 0 +
        rng.floats i * p2.Genome.getD i 0) :=
  uniformGenes_get? p1.Genome p2.Genome rng i hi hi2

theorem crossUniformF_per_gene_blend_witness :
    (1 < ([1, 2] : List Rat).length ∧ 1 < ([3, 4] : List Rat).length) ∧
    ((CrossUniformF.Apply ⟨⟩ ⟨[1, 2], true⟩ ⟨[3, 4], true⟩
        ⟨fun _ => 0, fun _ => (1 : Rat)/3⟩).1.Genome.get? 1 =
      some ((1 : Rat)/3 * 2 + (1 - (1 : Rat)/3) * 4) ∧
     (CrossUniformF.Apply ⟨⟩ ⟨[1, 2], true⟩ ⟨[3, 4], true⟩
        ⟨fun _ => 0, fun _ => (1 : Rat)/3⟩).2.Genome.get? 1 =
      some ((1 - (1 : Rat)/3) * 2 + (1 : Rat)/3 * 4)) :=
  ⟨⟨by decide, by decide⟩,
   crossUniformF_per_gene_blend ⟨[1, 2], true⟩ ⟨[3, 4], true⟩
     ⟨fun _ => 0, fun _ => (1 : Rat)/3⟩ 1 (by decide) (by decide)⟩

/-- C6: when every draw lies in `[0,1)` (Go's `Float64` contract), both
offspring genes at each position lie in the closed interval between
`min(p1[i], p2[i])` and `max(p1[i], p2[i])`; and when every draw is
forced to `1.0`, offspring1 equals parent1 and offspring2 equals parent2
exactly. -/
theorem crossUniformF_bounding (p1 p2 : Individual Rat) (rng : Rand)
    (h : p2.Genome.length = p1.Genome.length) :
    ((∀ n, 0 ≤ rng.floats n ∧ rng.floats n < 1) →
      ∀ i, i < p1.Genome.length → i < p2.Genome.length →
        ∃ v1 v2,
          (CrossUniformF.Apply ⟨⟩ p1 p2 rng).1.Genome.get? i = some v1 ∧
          (CrossUniformF.Apply ⟨⟩ p1 p2 rng).2.Genome.get? i = some v2 ∧
          min (p1.Genome.getD i 0) (p2.Genome.getD i 0) ≤ v1 ∧
          v1 ≤ max (p1.Genome.getD i 0) (p2.Genome.getD i 0) ∧
          min (p1.Genome.getD i 0) (p2.Genome.getD i 0) ≤ v2 ∧
          v2 ≤ max (p1.Genome.getD i 0) (p2.Genome.getD i 0)) ∧
    ((∀ n, rng.floats n = 1) →
      (CrossUniformF.Apply ⟨⟩ p1 p2 rng).1.Genome = p1.Genome ∧
      (CrossUniformF.Apply ⟨⟩ p1 p2 rng).2.Genome = p2.Genome) := by
  constructor
  · intro hp i hi hi2
    obtain ⟨h1, h2⟩ := uniformGenes_get? p1.Genome p2.Genome rng i hi hi2
    refine ⟨_, _, h1, h2, ?_, ?_, ?_, ?_⟩
    · exact (convex_combination_bounds (rng.floats i) _ _ (hp i).1
        (le_of_lt (hp i).2)).1
    · exact (convex_combination_bounds (rng.floats i) _ _ (hp i).1
        (le_of_lt (hp i).2)).2
    · have hb := convex_combination_bounds (1 - rng.floats i)
        (p1.Genome.getD i 0) (p2.Genome.getD i 0)
        (by have := (hp i).2; linarith) (by have := (hp i).1; linarith)
      have he : (1 - (1 - rng.floats i)) = rng.floats i := by ring
      rw [he] at hb
      exact hb.1
    · have hb := convex_combination_bounds (1 - rng.floats i)
        (p1.Genome.getD i 0) (p2.Genome.getD i 0)
        (by have := (hp i).2; linarith) (by have := (hp i).1; linarith)
      have he : (1 - (1 - rng.floats i)) = rng.floats i := by ring
      rw [he] at hb
      exact hb.2
  · intro hone
    have := uniformGenes_all_ones p1.Genome p2.Genome rng hone h.symm
    exact ⟨by show (uniformGenes p1.Genome p2.Genome rng).1 = _; rw [this],
           by show (uniformGenes p1.Genome p2.Genome rng).2 = _; rw [this]⟩

theorem crossUniformF_bounding_witness :
    (∃ v1 v2,
      (CrossUniformF.Apply ⟨⟩ ⟨[1, 2], true⟩ ⟨[3, 4], true⟩
          ⟨fun _ => 0, fun _ => (1 : Rat)/2⟩).1.Genome.get? 0 = some v1 ∧
      (CrossUniformF.Apply ⟨⟩ ⟨[1, 2], true⟩ ⟨[3, 4], true⟩
          ⟨fun _ => 0, fun _ => (1 : Rat)/2⟩).2.Genome.get? 0 = some v2 ∧
      min (1 : Rat) 3 ≤ v1 ∧ v1 ≤ max (1 : Rat) 3 ∧
      min (1 : Rat) 3 ≤ v2 ∧ v2 ≤ max (1 : Rat) 3) ∧
    ((CrossUniformF.Apply ⟨⟩ ⟨[1, 2], true⟩ ⟨[3, 4], true⟩
        ⟨fun _ => 0, fun _ => 1⟩).1.Genome = [1, 2] ∧
     (CrossUniformF.Apply ⟨⟩ ⟨[1, 2], true⟩ ⟨[3, 4], true⟩
        ⟨fun _ => 0, fun _ => 1⟩).2.Genome = [3, 4]) :=
  ⟨(crossUniformF_bounding ⟨[1, 2], true⟩ ⟨[3, 4], true⟩
      ⟨fun _ => 0, fun _ => (1 : Rat)/2⟩ (by decide)).1
      (fun _ => ⟨by norm_num, by norm_num⟩) 0 (by decide) (by decide),
   (crossUniformF_bounding ⟨[1, 2], true⟩ ⟨[3, 4], true⟩
      ⟨fun _ => 0, fun _ => 1⟩ (by decide)).2 (fun _ => rfl)⟩

/-- C10: at every gene position the two offspring of `CrossUniformF`
conserve the per-position sum,
`o1[i] + o2[i] = p1[i] + p2[i]`, since they are the two complementary
convex combinations built from the same per-position draw. -/
theorem crossUniformF_sum_conservation (p1 p2 : Individual Rat) (rng : Rand)
    (i : Nat) (hi : i < p1.Genome.length) (hi2 : i < p2.Genome.length) :
    ∃ v1 v2,
      (CrossUniformF.Apply ⟨⟩ p1 p2 rng).1.Genome.get? i = some v1 ∧
      (CrossUniformF.Apply ⟨⟩ p1 p2 rng).2.Genome.get? i = some v2 ∧
      v1 + v2 = p1.Genome.getD i 0 + p2.Genome.getD i 0 := by
  obtain ⟨h1, h2⟩ := uniformGenes_get? p1.Genome p2.Genome rng i hi hi2
  exact ⟨_, _, h1, h2, by ring⟩

/-! PMX machinery: lookup, swap-permutation, loop invariant. -/

theorem getIndex_isSome_of_mem {α : Type} [DecidableEq α] {v : α} :
    ∀ {l : List α}, v ∈ l → ∃ a, getIndex v l = some a := by
  intro l hv
  induction l with
  | nil => cases hv
  | cons x xs ih =>
    by_cases hx : x = v
    · exact ⟨0, by simp [getIndex, hx]⟩
    · have hv' : v ∈ xs := by
        rcases List.mem_cons.mp hv with h | h
        · exact absurd h.symm hx
        · exact h
      obtain ⟨a, ha⟩ := ih hv'
      exact ⟨a + 1, by simp [getIndex, hx, ha]⟩

theorem getIndex_some {α : Type} [DecidableEq α] {v : α} :
    ∀ {l : List α} {a : Nat}, getIndex v l = some a →
      a < l.length ∧ l.get? a = some v := by
  intro l
  induction l with
  | nil => intro a h; cases h
  | cons x xs ih =>
    intro a h
    by_cases hx : x = v
    · have ha : a = 0 := by
        simp [getIndex, hx] at h
        omega
      subst ha
      simp [hx]
    · simp only [getIndex, if_neg hx, Option.map_eq_some'] at h
      obtain ⟨b, hb, hba⟩ := h
      obtain ⟨hlt, hget⟩ := ih hb
      subst hba
      exact ⟨by simpa using Nat.succ_lt_succ hlt, by simpa using hget⟩

theorem count_set_add {α : Type} [DecidableEq α] :
    ∀ (l : List α) (j : Nat) (x y w : α), l.get? j = some w →
      (l.set j x).count y + (if w = y then 1 else 0) =
        l.count y + (if x = y then 1 else 0) := by
  intro l
  induction l with
  | nil => intro j x y w h; cases h
  | cons z zs ih =>
    intro j x y w h
    cases j with
    | zero =>
      have hw : z = w := by
        have := h
        simp at this
        exact this
      subst hw
      simp only [List.set, List.count_cons, beq_iff_eq]
      split_ifs <;> omega
    | succ j =>
      have h' : zs.get? j = some w := by simpa using h
      have := ih j x y w h'
      simp only [List.set, List.count_cons, beq_iff_eq]
      split_ifs at this ⊢ <;> omega

theorem set_get?_self {α : Type} (l : List α) (n : Nat) (w : α)
    (h : l.get? n = some w) : l.set n w = l := by
  apply List.ext
  intro t
  rw [get?_set]
  split_ifs with hc
  · rw [← hc.1] at *
    exact h.symm
  · rfl

theorem nodup_get?_inj {α : Type} {l : List α} (h : l.Nodup) {a b : Nat} {v : α}
    (ha : l.get? a = some v) (hb : l.get? b = some v) : a = b := by
  obtain ⟨hal, hag⟩ := List.get?_eq_some.mp ha
  obtain ⟨hbl, hbg⟩ := List.get?_eq_some.mp hb
  have hget : l.get ⟨a, hal⟩ = l.get ⟨b, hbl⟩ := by rw [hag, hbg]
  have := (h.get_inj_iff).mp hget
  exact congrArg Fin.val this

theorem swap_perm {α : Type} [DecidableEq α] (g : List α) (a i : Nat) (v gi : α)
    (hga : g.get? a = some v) (hgi : g.get? i = some gi) :
    ((g.set a gi).set i v).Perm g := by
  by_cases hcase : a = i
  · subst hcase
    have hv : v = gi := by
      rw [hga] at hgi
      exact Option.some.inj hgi
    subst hv
    rw [List.set_set, set_get?_self g a v hga]
  · rw [List.perm_iff_count]
    intro y
    have hset_i : (g.set a gi).get? i = some gi := by
      rw [get?_set, if_neg]
      · exact hgi
      · intro hc
        exact hcase hc.1
    have h1 := count_set_add (g.set a gi) i v y gi hset_i
    have h2 := count_set_add g a gi y v hga
    omega

theorem pmxStep_some_of {α : Type} [DecidableEq α] (pg g : List α) (i : Nat)
    (v gi : α) (hv : pg.get? i = some v) (hgi : g.get? i = some gi)
    (hmem : v ∈ g) :
    ∃ a, getIndex v g = some a ∧
      pmxStep pg g i = some ((g.set a gi).set i v) ∧ g.get? a = some v := by
  obtain ⟨a, ha⟩ := getIndex_isSome_of_mem hmem
  obtain ⟨halen, haget⟩ := getIndex_some ha
  refine ⟨a, ha, ?_, haget⟩
  simp only [pmxStep, hv, hgi, ha]

theorem pmxLoop_invariant {α : Type} [DecidableEq α] (p1g p2g : List α)
    (hp : p1g.Perm p2g) (h1n : p1g.Nodup) (h2n : p2g.Nodup) :
    ∀ (k j : Nat) (g1 g2 : List α),
      j + k ≤ p1g.length →
      g1.Perm p1g → g2.Perm p2g →
      (∀ t, t < j → g1.get? t = p2g.get? t) →
      (∀ t, t < j → g2.get? t = p1g.get? t) →
      ∃ gs, pmxLoop p1g p2g (List.range' j k) (g1, g2) = some gs ∧
        gs.1.Perm p1g ∧ gs.2.Perm p2g ∧
        (∀ t, t < j + k → gs.1.get? t = p2g.get? t) ∧
        (∀ t, t < j + k → gs.2.get? t = p1g.get? t) := by
  intro k
  induction k with
  | zero =>
    intro j g1 g2 hjk hg1 hg2 hf1 hf2
    exact ⟨(g1, g2), rfl, hg1, hg2,
      fun t ht => hf1 t (by omega), fun t ht => hf2 t (by omega)⟩
  | succ k ih =>
    intro j g1 g2 hjk hg1 hg2 hf1 hf2
    have hlen12 : p1g.length = p2g.length := hp.length_eq
    have hg1len : g1.length = p1g.length := hg1.length_eq
    have hg2len : g2.length = p2g.length := hg2.length_eq
    have hjlt : j < p1g.length := by omega
    obtain ⟨v2, hv2⟩ : ∃ v, p2g.get? j = some v := by
      rw [List.get?_eq_get (by omega)]; exact ⟨_, rfl⟩
    obtain ⟨w1, hw1⟩ : ∃ w, g1.get? j = some w := by
      rw [List.get?_eq_get (by omega)]; exact ⟨_, rfl⟩
    have hmem1 : v2 ∈ g1 :=
      hg1.mem_iff.mpr (hp.mem_iff.mpr (List.get?_mem hv2))
    obtain ⟨a1, ha1, hstep1, hga1⟩ :=
      pmxStep_some_of p2g g1 j v2 w1 hv2 hw1 hmem1
    have ha1ge : j ≤ a1 := by
      by_contra hlt
      push_neg at hlt
      have hpa : p2g.get? a1 = some v2 := by rw [← hf1 a1 hlt]; exact hga1
      have := nodup_get?_inj h2n hpa hv2
      omega
    obtain ⟨v1, hv1⟩ : ∃ v, p1g.get? j = some v := by
      rw [List.get?_eq_get (by omega)]; exact ⟨_, rfl⟩
    obtain ⟨w2, hw2⟩ : ∃ w, g2.get? j = some w := by
      rw [List.get?_eq_get (by omega)]; exact ⟨_, rfl⟩
    have hmem2 : v1 ∈ g2 :=
      hg2.mem_iff.mpr (hp.symm.mem_iff.mpr (List.get?_mem hv1))
    obtain ⟨a2, ha2, hstep2, hga2⟩ :=
      pmxStep_some_of p1g g2 j v1 w2 hv1 hw2 hmem2
    have ha2ge : j ≤ a2 := by
      by_contra hlt
      push_neg at hlt
      have hpa : p1g.get? a2 = some v1 := by rw [← hf2 a2 hlt]; exact hga2
      have := nodup_get?_inj h1n hpa hv1
      omega
    have hg1' : ((g1.set a1 w1).set j v2).Perm p1g :=
      (swap_perm g1 a1 j v2 w1 hga1 hw1).trans hg1
    have hg2' : ((g2.set a2 w2).set j v1).Perm p2g :=
      (swap_perm g2 a2 j v1 w2 hga2 hw2).trans hg2
    have hpre1 : ∀ t, t < j + 1 → ((g1.set a1 w1).set j v2).get? t = p2g.get? t := by
      intro t ht
      rw [get?_set]
      by_cases htj : t = j
      · subst htj
        rw [if_pos ⟨rfl, by simp; omega⟩]
        exact hv2.symm
      · have htlt : t < j := by omega
        rw [if_neg (fun hc => htj hc.1.symm), get?_set,
          if_neg (fun hc => by omega)]
        exact hf1 t htlt
    have hpre2 : ∀ t, t < j + 1 → ((g2.set a2 w2).set j v1).get? t = p1g.get? t := by
      intro t ht
      rw [get?_set]
      by_cases htj : t = j
      · subst htj
        rw [if_pos ⟨rfl, by simp; omega⟩]
        exact hv1.symm
      · have htlt : t < j := by omega
        rw [if_neg (fun hc => htj hc.1.symm), get?_set,
          if_neg (fun hc => by omega)]
        exact hf2 t htlt
    obtain ⟨gs, hloop, hgs1, hgs2, hout1, hout2⟩ :=
      ih (j + 1) ((g1.set a1 w1).set j v2) ((g2.set a2 w2).set j v1)
        (by omega) hg1' hg2' hpre1 hpre2
    refine ⟨gs, ?_, hgs1, hgs2,
      fun t ht => hout1 t (by omega), fun t ht => hout2 t (by omega)⟩
    rw [List.range'_succ]
    simp only [pmxLoop, hstep1, hstep2]
    exact hloop

theorem crossUniformF_sum_conservation_witness :
    ∃ v1 v2,
      (CrossUniformF.Apply ⟨⟩ ⟨[1, 2], true⟩ ⟨[3, 4], true⟩
          ⟨fun _ => 0, fun _ => (1 : Rat)/3⟩).1.Genome.get? 0 = some v1 ∧
      (CrossUniformF.Apply ⟨⟩ ⟨[1, 2], true⟩ ⟨[3, 4], true⟩
          ⟨fun _ => 0, fun _ => (1 : Rat)/3⟩).2.Genome.get? 0 = some v2 ∧
      v1 + v2 = (1 : Rat) + 3 :=
  crossUniformF_sum_conservation ⟨[1, 2], true⟩ ⟨[3, 4], true⟩
    ⟨fun _ => 0, fun _ => (1 : Rat)/3⟩ 0 (by decide) (by decide)

/-- For permutation parents, a successful point draw makes the whole of
`CrossPMX.Apply` succeed: the mapping loop runs to completion, both
offspring genomes stay permutations of their starting parent, and the
first `q + 1` positions of each offspring hold the other parent's
values. -/
theorem pmx_apply_characterization {α : Type} [DecidableEq α] [Inhabited α]
    (p1 p2 : Individual α) (rng : Rand)
    (h1n : p1.Genome.Nodup) (h2n : p2.Genome.Nodup)
    (hp : p1.Genome.Perm p2.Genome) (q : Nat) (rng1 : Rand)
    (hq : rng.intn ((p1.Genome.length : Int) - 2) = some (q, rng1)) :
    ∃ gs : List α × List α,
      CrossPMX.Apply ⟨⟩ p1 p2 rng = some (⟨gs.1, false⟩, ⟨gs.2, false⟩) ∧
      gs.1.Perm p1.Genome ∧ gs.2.Perm p2.Genome ∧
      (∀ t, t < q + 1 → gs.1.get? t = p2.Genome.get? t) ∧
      (∀ t, t < q + 1 → gs.2.get? t = p1.Genome.get? t) := by
  have hqlt : q + 1 ≤ p1.Genome.length := by
    unfold Rand.intn at hq
    by_cases hc : ((p1.Genome.length : Int) - 2) ≤ 0
    · rw [if_pos hc] at hq; cases hq
    · rw [if_neg hc] at hq
      have hqe : rng.ints 0 % ((p1.Genome.length : Int) - 2).toNat = q := by
        cases hq; rfl
      have htpos : 0 < ((p1.Genome.length : Int) - 2).toNat := by omega
      have := Nat.mod_lt (rng.ints 0) htpos
      omega
  have hcopy1 :
      goCopy (List.replicate p1.Genome.length (default : α)) p1.Genome
        = p1.Genome := by
    unfold goCopy
    rw [List.length_replicate]
    exact copyRange_replicate _ _ _ rfl
  have hcopy2 :
      goCopy (List.replicate p1.Genome.length (default : α)) p2.Genome
        = p2.Genome := by
    unfold goCopy
    rw [List.length_replicate]
    exact copyRange_replicate _ _ _ hp.length_eq.symm
  obtain ⟨gs, hloop, hgs1, hgs2, hout1, hout2⟩ :=
    pmxLoop_invariant p1.Genome p2.Genome hp h1n h2n (q + 1) 0
      p1.Genome p2.Genome (by omega) (List.Perm.refl _) (List.Perm.refl _)
      (fun t ht => absurd ht (by omega)) (fun t ht => absurd ht (by omega))
  refine ⟨gs, ?_, hgs1, hgs2, by simpa using hout1, by simpa using hout2⟩
  simp only [CrossPMX.Apply, makeIndividual, hq]
  rw [hcopy1, hcopy2, List.range_eq_range']
  simp only [hloop]

/-- C3: for parents whose genomes are permutations of the same value set
(no duplicates, same multiset), whenever `CrossPMX.Apply` returns
offspring, both offspring genomes are again permutations of that same
value set: each is a permutation of parent1's genome and has no
duplicates. -/
theorem pmx_permutation_validity {α : Type} [DecidableEq α] [Inhabited α]
    (p1 p2 : Individual α) (rng : Rand)
    (h1n : p1.Genome.Nodup) (h2n : p2.Genome.Nodup)
    (hp : p1.Genome.Perm p2.Genome) :
    ∀ o1 o2, CrossPMX.Apply ⟨⟩ p1 p2 rng = some (o1, o2) →
      (o1.Genome.Perm p1.Genome ∧ o1.Genome.Nodup) ∧
      (o2.Genome.Perm p1.Genome ∧ o2.Genome.Nodup) := by
  intro o1 o2 hap
  cases hin : Rand.intn rng ((p1.Genome.length : Int) - 2) with
  | none =>
    simp only [CrossPMX.Apply, makeIndividual, hin] at hap
    cases hap
  | some qr =>
    obtain ⟨q, rng1⟩ := qr
    obtain ⟨gs, happ, hgs1, hgs2, _, _⟩ :=
      pmx_apply_characterization p1 p2 rng h1n h2n hp q rng1 hin
    rw [happ] at hap
    simp only [Option.some.injEq, Prod.mk.injEq] at hap
    obtain ⟨ho1, ho2⟩ := hap
    subst ho1
    subst ho2
    exact ⟨⟨hgs1, hgs1.nodup_iff.mpr h1n⟩,
           ⟨hgs2.trans hp.symm, hgs2.nodup_iff.mpr h2n⟩⟩

theorem pmx_permutation_validity_witness :
    (([5, 4, 3, 2, 1] : List Nat).Perm [1, 2, 3, 4, 5] ∧
     ([5, 4, 3, 2, 1] : List Nat).Nodup) ∧
    (([1, 2, 3, 4, 5] : List Nat).Perm [1, 2, 3, 4, 5] ∧
     ([1, 2, 3, 4, 5] : List Nat).Nodup) :=
  pmx_permutation_validity ⟨[1, 2, 3, 4, 5], true⟩ ⟨[5, 4, 3, 2, 1], true⟩
    ⟨fun _ => 1, fun _ => 0⟩ (by decide) (by decide) (by decide)
    ⟨[5, 4, 3, 2, 1], false⟩ ⟨[1, 2, 3, 4, 5], false⟩ (by decide)

/-- C4: after `CrossPMX.Apply` with crossover point `p = q + 1` (where
the draw `rng.Intn(nbGenes-2)` returned `q`), offspring1 holds parent2's
values at every position below `p` and offspring2 holds parent1's values
at every position below `p`. -/
theorem pmx_mapped_below_point {α : Type} [DecidableEq α] [Inhabited α]
    (p1 p2 : Individual α) (rng : Rand)
    (h1n : p1.Genome.Nodup) (h2n : p2.Genome.Nodup)
    (hp : p1.Genome.Perm p2.Genome) (o1 o2 : Individual α)
    (hap : CrossPMX.Apply ⟨⟩ p1 p2 rng = some (o1, o2))
    (q : Nat) (rng1 : Rand)
    (hq : rng.intn ((p1.Genome.length : Int) - 2) = some (q, rng1))
    (i : Nat) (hi : i < q + 1) :
    o1.Genome.get? i = p2.Genome.get? i ∧
    o2.Genome.get? i = p1.Genome.get? i := by
  obtain ⟨gs, happ, _, _, hout1, hout2⟩ :=
    pmx_apply_characterization p1 p2 rng h1n h2n hp q rng1 hq
  rw [happ] at hap
  simp only [Option.some.injEq, Prod.mk.injEq] at hap
  obtain ⟨ho1, ho2⟩ := hap
  subst ho1
  subst ho2
  exact ⟨hout1 i hi, hout2 i hi⟩

theorem pmx_mapped_below_point_witness :
    ((⟨[5, 4, 3, 2, 1], false⟩ : Individual Nat).Genome.get? 1 =
      ([5, 4, 3, 2, 1] : List Nat).get? 1) ∧
    ((⟨[1, 2, 3, 4, 5], false⟩ : Individual Nat).Genome.get? 1 =
      ([1, 2, 3, 4, 5] : List Nat).get? 1) :=
  pmx_mapped_below_point ⟨[1, 2, 3, 4, 5], true⟩ ⟨[5, 4, 3, 2, 1], true⟩
    ⟨fun _ => 1, fun _ => 0⟩ (by decide) (by decide) (by decide)
    ⟨[5, 4, 3, 2, 1], false⟩ ⟨[1, 2, 3, 4, 5], false⟩ (by decide)
    1 (Rand.shift ⟨fun _ => 1, fun _ => 0⟩) rfl 1 (by decide)

/-- C9: the crossover point `p = rng.Intn(nbGenes-2) + 1` of
`CrossPMX.Apply` is strictly interior, `0 < p < genomeLength - 1`, for
every genome of length at least 3; for genomes of length less than 3 the
draw `Intn(nbGenes-2)` panics (argument not positive) and the call fails
without returning offspring. -/
theorem pmx_interior_point {α : Type} [DecidableEq α] [Inhabited α]
    (p1 p2 : Individual α) (rng : Rand) :
    (3 ≤ p1.Genome.length →
      ∃ q rng1, rng.intn ((p1.Genome.length : Int) - 2) = some (q, rng1) ∧
        0 < q + 1 ∧ q + 1 < p1.Genome.length - 1) ∧
    (p1.Genome.length < 3 → CrossPMX.Apply ⟨⟩ p1 p2 rng = none) := by
  constructor
  · intro h3
    have hc : ¬ ((p1.Genome.length : Int) - 2 ≤ 0) := by omega
    refine ⟨rng.ints 0 % ((p1.Genome.length : Int) - 2).toNat, rng.shift,
      ?_, by omega, ?_⟩
    · unfold Rand.intn
      rw [if_neg hc]
    · have htpos : 0 < ((p1.Genome.length : Int) - 2).toNat := by omega
      have := Nat.mod_lt (rng.ints 0) htpos
      omega
  · intro h3
    have hnone : rng.intn ((p1.Genome.length : Int) - 2) = none := by
      unfold Rand.intn
      rw [if_pos (by omega)]
    simp only [CrossPMX.Apply, makeIndividual, hnone]

theorem pmx_interior_point_witness :
    (∃ q rng1,
      Rand.intn ⟨fun _ => 5, fun _ => 0⟩
          ((([1, 2, 3] : List Nat).length : Int) - 2) = some (q, rng1) ∧
        0 < q + 1 ∧ q + 1 < ([1, 2, 3] : List Nat).length - 1) ∧
    CrossPMX.Apply ⟨⟩ (⟨[1, 2], true⟩ : Individual Nat) ⟨[2, 1], true⟩
        ⟨fun _ => 5, fun _ => 0⟩ = none :=
  ⟨(pmx_interior_point ⟨[1, 2, 3], true⟩ ⟨[3, 2, 1], true⟩
      ⟨fun _ => 5, fun _ => 0⟩).1 (by decide),
   (pmx_interior_point ⟨[1, 2], true⟩ ⟨[2, 1], true⟩
      ⟨fun _ => 5, fun _ => 0⟩).2 (by decide)⟩

end Gago
